import Mathlib

/-!
Verification model of the Go_RepoSync_Micro repository.

Go strings are modelled as `List Char`; the code under study only ever
manipulates ASCII content, where Go's byte-level operations coincide with
character-level ones.  Machine integers (`int`) are modelled as `Int`.
External collaborators (HTTP services) are modelled as explicit response
functions passed to the engine, and fallible calls return `Option`.
-/

set_option autoImplicit false
set_option maxRecDepth 8000

namespace RepoSync

/-- Go `unicode.IsSpace` restricted to the ASCII range used by the sources:
space, tab, newline, vertical tab, form feed, carriage return. -/
def isSpaceGo (c : Char) : Bool :=
  c == ' ' || c == '\t' || c == '\n' || c == Char.ofNat 11 || c == Char.ofNat 12 || c == Char.ofNat 13

/-- Go `unicode.IsPrint` restricted to the ASCII range: the visible
characters together with the ASCII space. -/
def isPrintGo (c : Char) : Bool :=
  decide (0x20 ≤ c.toNat) && decide (c.toNat ≤ 0x7e)

/-- The rune filter of `CleanContent` (document-processor `main.go`, line 166):
keep tabs and printable runes, drop every other control character. -/
def keepRune (c : Char) : Bool :=
  c == '\t' || isPrintGo c

/-- Go `strings.TrimSpace`: drop leading and trailing whitespace. -/
def trimSpace (l : List Char) : List Char :=
  ((l.dropWhile isSpaceGo).reverse.dropWhile isSpaceGo).reverse

/-- Go `strings.Split content "\n"` (document-processor `main.go`, line 153).
`splitLines []` is `[[]]`, matching Go splitting the empty string. -/
def splitLines : List Char → List (List Char)
  | [] => [[]]
  | c :: cs =>
    if c = '\n' then [] :: splitLines cs
    else
      match splitLines cs with
      | [] => [[c]]
      | l :: ls => (c :: l) :: ls

/-- Go `strings.Join lines "\n"`. -/
def joinLines : List (List Char) → List Char
  | [] => []
  | [l] => l
  | l :: ls => l ++ '\n' :: joinLines ls

/-- Function `CleanContent` (document-processor `main.go`, lines 151-177): split into
lines, trim each line, skip lines that are empty after trimming, remove
non-printable runes other than tab from the surviving lines, join with
newlines. -/
def cleanContent (content : List Char) : List Char :=
  joinLines ((((splitLines content).map trimSpace).filter
    (fun l => !l.isEmpty)).map (fun l => l.filter keepRune))

/-- Go slice `text[a:b]` for `0 ≤ a ≤ b ≤ len text` (indices as `Int`,
matching the `int` variables of `splitIntoChunks`). -/
def sliceGo (text : List Char) (a b : Int) : List Char :=
  (text.take b.toNat).drop a.toNat

/-- The sentence-ending runes `".!?\n"` of `splitIntoChunks`. -/
def isSentenceEnd (c : Char) : Bool :=
  c == '.' || c == '!' || c == '?' || c == '\n'

/-- Go `strings.LastIndexAny s ".!?\n"`: index of the last sentence-ending
rune, `-1` when there is none. -/
def lastIndexAny : List Char → Int
  | [] => -1
  | c :: cs =>
    let r := lastIndexAny cs
    if 0 ≤ r then r + 1
    else if isSentenceEnd c then 0 else -1

/-- One iteration of the loop body of `splitIntoChunks` (document-processor
`main.go`, lines 88-112), given the current `start`; returns the next value
of `start` together with the chunk cut in this iteration (already trimmed;
the loop appends it only when it is non-empty).  Go divides `maxSize` with
truncation; every configuration has `maxSize ≥ 0`, where that agrees with
Lean's `Int` division. -/
def splitStep (text : List Char) (maxSize overlap start : Int) : Int × List Char :=
  let textLen : Int := text.length
  let e0 : Int := if start + maxSize > textLen then textLen else start + maxSize
  let e1 : Int :=
    if e0 < textLen then
      let lastPeriod := lastIndexAny (sliceGo text start e0)
      if lastPeriod > maxSize / 2 then start + lastPeriod + 1 else e0
    else e0
  let chunk := trimSpace (sliceGo text start e1)
  let s1 := e1 - overlap
  (if s1 < 0 then 0 else s1, chunk)

/-- The `for start < textLen` loop of `splitIntoChunks`, with explicit fuel:
`none` means the fuel ran out before the loop exited.  The source loop has no
other exit, so divergence of the source is exactly `none` for every fuel. -/
def splitLoop (text : List Char) (maxSize overlap : Int) :
    Nat → Int → List (List Char) → Option (List (List Char))
  | 0, _, _ => none
  | fuel + 1, start, chunks =>
    if start < (text.length : Int) then
      splitLoop text maxSize overlap fuel (splitStep text maxSize overlap start).1
        (if (splitStep text maxSize overlap start).2.isEmpty then chunks
         else chunks ++ [(splitStep text maxSize overlap start).2])
    else some chunks

/-- Function `splitIntoChunks` (document-processor `main.go`, lines 83-116), run with
the given fuel from `start = 0` and no accumulated chunks. -/
def splitIntoChunks (fuel : Nat) (text : List Char) (maxSize overlap : Int) :
    Option (List (List Char)) :=
  splitLoop text maxSize overlap fuel 0 []

/-- The source loop terminates on `text` iff some finite fuel suffices. -/
def splitTerminates (text : List Char) (maxSize overlap : Int) : Prop :=
  ∃ fuel out, splitIntoChunks fuel text maxSize overlap = some out

/-- Structure `models.FileChange`: one changed file reported by the change detector.
Wall-clock fields (`LastModified`) and the size are carried as plain data. -/
structure FileChange where
  repository : List Char
  filePath : List Char
  content : List Char
  changeType : List Char
  commitSHA : List Char
  lastModified : Int
  deriving Repr, DecidableEq

/-- Structure `models.Document`: one chunk produced by the document processor. -/
structure Document where
  id : List Char
  repository : List Char
  filePath : List Char
  content : List Char
  chunkIndex : Nat
  totalChunks : Nat
  commitSHA : List Char
  metadata : List (List Char × List Char)
  deriving Repr, DecidableEq

/-- Decimal rendering of a chunk ordinal, Go `fmt.Sprintf "%d" i`. -/
def natChars (n : Nat) : List Char :=
  (Nat.repr n).data

/-- The chunk identifier of `ChunkDocument` (document-processor `main.go`,
line 56).  The source takes the md5 hex digest of the string
`repository-filePath-ordinal`; the digest is a fixed deterministic function
of that string and of nothing else, so identifier equality and
content-independence claims factor through the digested string, which the
model carries directly. -/
def docID (repo path : List Char) (i : Nat) : List Char :=
  repo ++ '-' :: path ++ '-' :: natChars i

/-- Go `filepath.Ext`: the suffix of the path starting at the final dot of
the final slash-separated element; empty when there is no such dot. -/
def filepathExt (path : List Char) : List Char :=
  let rev := path.reverse
  let pre := rev.takeWhile (fun c => !(c == '/') && !(c == '.'))
  match rev.drop pre.length with
  | '.' :: _ => '.' :: pre.reverse
  | _ => []

/-- The per-chunk `models.Document` built by `ChunkDocument` (document-
processor `main.go`, lines 54-76) for chunk `chunk` at ordinal `i` out of
`total`. -/
def mkDocument (fc : FileChange) (total : Nat) (i : Nat) (chunk : List Char) : Document :=
  { id := docID fc.repository fc.filePath i
    repository := fc.repository
    filePath := fc.filePath
    content := chunk
    chunkIndex := i
    totalChunks := total
    commitSHA := fc.commitSHA
    metadata :=
      [("repository".data, fc.repository),
       ("file_path".data, fc.filePath),
       ("commit_sha".data, fc.commitSHA),
       ("chunk_index".data, natChars i),
       ("total_chunks".data, natChars total),
       ("file_ext".data, filepathExt fc.filePath)] }

/-- The document list built from the chunk list by `ChunkDocument`. -/
def mkDocuments (fc : FileChange) (chunks : List (List Char)) : List Document :=
  chunks.enum.map (fun ic => mkDocument fc chunks.length ic.1 ic.2)

/-- Function `ChunkDocument` (document-processor `main.go`, lines 37-80): clean the
content; empty content yields no documents; content at most `maxSize` long
is one single chunk; otherwise the content is split by `splitIntoChunks`
(whose loop needs fuel — `none` models its divergence). -/
def chunkDocument (fuel : Nat) (fc : FileChange) (maxSize overlap : Int) :
    Option (List Document) :=
  let content := cleanContent fc.content
  if content.length = 0 then some []
  else if (content.length : Int) ≤ maxSize then some (mkDocuments fc [content])
  else (splitIntoChunks fuel content maxSize overlap).map (mkDocuments fc)

/-- Test that `sub` starts `s` (character by character). -/
def startsWith : List Char → List Char → Bool
  | [], _ => true
  | _ :: _, [] => false
  | c :: cs, d :: ds => c == d && startsWith cs ds

/-- Go `strings.Contains s sub`: `sub` occurs as a contiguous substring
anywhere in `s`. -/
def strContains (s sub : List Char) : Bool :=
  (List.range (s.length + 1)).any (fun i => startsWith sub (s.drop i))

/-- Function `ValidateDocument` (document-processor `main.go`, lines 119-148): check
the extension against the allow list only when the allow list is non-empty,
then the deny patterns via `strings.Contains`, then reject deleted/removed
change records. -/
def validateDocument (fc : FileChange)
    (allowedExtensions excludePatterns : List (List Char)) : Bool :=
  let ext := filepathExt fc.filePath
  if 0 < allowedExtensions.length ∧ ¬ allowedExtensions.any (fun a => a == ext) then
    false
  else if excludePatterns.any (fun p => strContains fc.filePath p) then
    false
  else if fc.changeType == "deleted".data || fc.changeType == "removed".data then
    false
  else true

/-! ### Orchestrator (`services/orchestrator/main.go`) -/

/-- The `contains` helper of the orchestrator (`main.go`, lines 481-483):
`len(s) >= len(substr) && s[:len(substr)] == substr`.  Note this tests only
the prefix of `s`, despite its name. -/
def containsGo (s substr : List Char) : Bool :=
  decide (substr.length ≤ s.length) && (s.take substr.length == substr)

/-- The fields of `config.Processing` read by the orchestrator. -/
structure ProcessingConfig where
  allowedExtensions : List (List Char)
  excludePatterns : List (List Char)
  maxWorkers : Nat
  deriving Repr, DecidableEq

/-- The extension test of `filterFiles` (`main.go`, line 186):
`len(path) >= len(ext) && path[len(path)-len(ext):] == ext`. -/
def extMatches (path ext : List Char) : Bool :=
  decide (ext.length ≤ path.length) && (path.drop (path.length - ext.length) == ext)

/-- Function `filterFiles` (`main.go`, lines 179-211): keep a file iff its path ends
with some allow-listed extension and no deny pattern matches it under
`containsGo`.  The change kind of the record is never consulted. -/
def filterFiles (cfg : ProcessingConfig) (files : List FileChange) : List FileChange :=
  files.filter (fun f =>
    cfg.allowedExtensions.any (fun ext => extMatches f.filePath ext) &&
    !cfg.excludePatterns.any (fun pattern => containsGo f.filePath pattern))

/-- Structure `models.Embedding`, generic in the numeric vector type (the source uses
`[]float32`; no claim computes with the numbers themselves). -/
structure Embedding (V : Type) where
  id : List Char
  vector : V
  metadata : List (List Char × List Char)
  repository : List Char
  filePath : List Char
  nspace : List Char
  deriving Repr, DecidableEq

/-- The construction loop of `generateEmbeddings` (`main.go`, lines 339-349):
`embeddings[i]` is built from document `i` and `result.Embeddings[i]`.  The
`vecs.get? i = none` case models the out-of-range panic of the Go index
access when the vectorizer returned fewer vectors than texts. -/
def buildEmbeddings {V : Type} (org : List Char) (vecs : List V) :
    Nat → List Document → Option (List (Embedding V))
  | _, [] => some []
  | i, doc :: rest =>
    match vecs.get? i with
    | none => none
    | some v =>
      (buildEmbeddings org vecs (i + 1) rest).map (fun es =>
        { id := doc.id
          vector := v
          metadata := doc.metadata
          repository := doc.repository
          filePath := doc.filePath
          nspace := org } :: es)

/-- Function `generateEmbeddings` (`main.go`, lines 304-352): empty input short-cuts
to an empty list; otherwise the embedding service is called on the documents'
contents (`embedResp`, `none` = transport/decode error) and one `Embedding`
per document is built from the response. -/
def generateEmbeddings {V : Type} (embedResp : List (List Char) → Option (List V))
    (org : List Char) (documents : List Document) : Option (List (Embedding V)) :=
  if documents.isEmpty then some []
  else
    match embedResp (documents.map (fun d => d.content)) with
    | none => none
    | some vecs => buildEmbeddings org vecs 0 documents

/-- Function `processBatch` (`main.go`, lines 240-274).  A chunking or embedding
failure for one file only logs a warning and drops that file; the other
files' embeddings are kept.  The goroutines append to the shared slice under
a mutex in completion order; the model fixes file order, which the claims do
not distinguish.  The Go function always returns a nil error. -/
def processBatch {V : Type} (chunker : FileChange → Option (List Document))
    (embedResp : List (List Char) → Option (List V)) (org : List Char)
    (files : List FileChange) : List (Embedding V) × Nat :=
  files.foldl (fun acc f =>
    match chunker f with
    | none => acc
    | some docs =>
      match generateEmbeddings embedResp org docs with
      | none => acc
      | some es => (acc.1 ++ es, acc.2 + docs.length)) ([], 0)

/-- The batching loop of `processFiles` (`main.go`, lines 220-234): slices of
`bs` files in order.  Modelled for `bs ≥ 1` (a zero `MaxWorkers` would make
the Go loop spin forever). -/
def chunksOfAux {α : Type} (bs : Nat) : Nat → List α → List (List α)
  | 0, _ => []
  | _, [] => []
  | fuel + 1, xs => xs.take bs :: chunksOfAux bs fuel (xs.drop bs)

/-- Batches of `bs` files, in order. -/
def chunksOf {α : Type} (bs : Nat) (xs : List α) : List (List α) :=
  chunksOfAux bs xs.length xs

/-- Function `processFiles` (`main.go`, lines 214-237): fold `processBatch` over the
batches, concatenating embeddings and summing chunk counts.  The error it
would propagate from `processBatch` is always nil in the source. -/
def processFiles {V : Type} (chunker : FileChange → Option (List Document))
    (embedResp : List (List Char) → Option (List V)) (org : List Char)
    (bs : Nat) (files : List FileChange) : List (Embedding V) × Nat :=
  (chunksOf bs files).foldl (fun acc batch =>
    let r := processBatch chunker embedResp org batch
    (acc.1 ++ r.1, acc.2 + r.2)) ([], 0)

/-- Structure `models.Repository` as used by `SyncProject`. -/
structure Repository where
  fullName : List Char
  deriving Repr, DecidableEq

/-- Structure `models.SyncMetadata` as written by `SyncProject` step 6 (wall-clock
field `LastSyncedAt` omitted; no claim concerns it). -/
structure SyncMetadata where
  projectID : List Char
  repository : List Char
  filePath : List Char
  lastCommitSHA : List Char
  embeddingCount : Nat
  status : List Char
  deriving Repr, DecidableEq

/-- Structure `models.SyncResult` (timestamps and duration omitted; no claim concerns
them).  Warning entries are keyed here by the repository whose diff failed —
the only warnings `SyncProject` ever appends. -/
structure SyncResult where
  projectID : List Char
  success : Bool
  repositoriesScanned : Nat
  filesDiscovered : Nat
  filesChanged : Nat
  filesProcessed : Nat
  chunksCreated : Nat
  embeddingsGenerated : Nat
  vectorsUpserted : Nat
  errors : List (List Char)
  warnings : List (List Char)
  deriving Repr, DecidableEq

/-- The external collaborators of one `SyncProject` run, as response
functions: repository discovery, last-synced-commit lookup (its error is
discarded by the source via `lastCommitSHA, _ = ...`), per-repository change
detection, the document-processor `/chunk` call, the embedding `/embed`
call, and the vector-storage `/upsert` outcome. -/
structure SyncEnv (V : Type) where
  repos : Option (List Repository)
  lastSHA : List Char → List Char → List Char
  changes : List Char → List Char → Option (List FileChange)
  chunker : FileChange → Option (List Document)
  embedResp : List (List Char) → Option (List V)
  upsertOk : Bool

/-- The `SyncResult` created at the top of `SyncProject`. -/
def initialResult (projectID : List Char) : SyncResult :=
  { projectID := projectID
    success := false
    repositoriesScanned := 0
    filesDiscovered := 0
    filesChanged := 0
    filesProcessed := 0
    chunksCreated := 0
    embeddingsGenerated := 0
    vectorsUpserted := 0
    errors := []
    warnings := [] }

/-- Step 2 of `SyncProject` (`main.go`, lines 68-84): accumulate the changed
files of every repository; a failed diff appends a warning for that
repository and skips it. -/
def collectChanges {V : Type} (env : SyncEnv V) (projectID : List Char)
    (incremental : Bool) (repos : List Repository) :
    List FileChange × List (List Char) :=
  repos.foldl (fun acc repo =>
    let lastCommitSHA := if incremental then env.lastSHA projectID repo.fullName else []
    match env.changes repo.fullName lastCommitSHA with
    | none => (acc.1, acc.2 ++ [repo.fullName])
    | some fs => (acc.1 ++ fs, acc.2)) ([], [])

/-- The metadata row saved by step 6 of `SyncProject` (`main.go`,
lines 116-127) for one valid file: status `synced`, the file's current
commit SHA, `EmbeddingCount` hard-coded to 0. -/
def syncedMetadata (projectID : List Char) (f : FileChange) : SyncMetadata :=
  { projectID := projectID
    repository := f.repository
    filePath := f.filePath
    lastCommitSHA := f.commitSHA
    embeddingCount := 0
    status := "synced".data }

/-- Function `SyncProject` (`main.go`, lines 48-139).  Returns the `SyncResult`
together with the list of metadata rows whose save was requested in step 6
(the source discards the save error).  Discovery failure and upsert failure
return early; step 4 cannot fail because `processBatch` never returns an
error; step 6 unconditionally saves a `synced` row for every file that
passed `filterFiles`.  No vector-deletion call exists anywhere in the
function. -/
def syncProject {V : Type} (cfg : ProcessingConfig) (org : List Char)
    (env : SyncEnv V) (projectID : List Char) (incremental : Bool) :
    SyncResult × List SyncMetadata :=
  let r0 := initialResult projectID
  match env.repos with
  | none => ({ r0 with errors := ["Failed to discover repositories".data] }, [])
  | some repos =>
    let r1 := { r0 with repositoriesScanned := repos.length }
    let cw := collectChanges env projectID incremental repos
    let r2 := { r1 with
      warnings := cw.2
      filesDiscovered := cw.1.length
      filesChanged := cw.1.length }
    let validFiles := filterFiles cfg cw.1
    let r3 := { r2 with filesProcessed := validFiles.length }
    let ec := processFiles env.chunker env.embedResp org cfg.maxWorkers validFiles
    let r4 := { r3 with chunksCreated := ec.2, embeddingsGenerated := ec.1.length }
    if 0 < ec.1.length ∧ env.upsertOk = false then
      ({ r4 with errors := ["Failed to upsert vectors".data] }, [])
    else
      let r5 := if 0 < ec.1.length then { r4 with vectorsUpserted := ec.1.length } else r4
      ({ r5 with success := true }, validFiles.map (syncedMetadata projectID))

/-! ### Concrete fixtures used by the closed theorems -/

/-- A modified Go file. -/
def fcModA : FileChange :=
  { repository := "org/alpha".data
    filePath := "a.go".data
    content := "package a".data
    changeType := "modified".data
    commitSHA := "c1".data
    lastModified := 0 }

/-- A second modified Go file. -/
def fcModB : FileChange :=
  { repository := "org/alpha".data
    filePath := "b.go".data
    content := "package b".data
    changeType := "modified".data
    commitSHA := "c2".data
    lastModified := 0 }

/-- A third modified Go file. -/
def fcModC : FileChange :=
  { repository := "org/alpha".data
    filePath := "c.go".data
    content := "package c".data
    changeType := "modified".data
    commitSHA := "c3".data
    lastModified := 0 }

/-- A removal change record for a Go file. -/
def fcRem : FileChange :=
  { repository := "org/alpha".data
    filePath := "r.go".data
    content := "package r".data
    changeType := "removed".data
    commitSHA := "c4".data
    lastModified := 0 }

/-- A Go file inside a deny-listed directory that is not at the start of
the path. -/
def fcVendored : FileChange :=
  { repository := "org/alpha".data
    filePath := "src/node_modules/x.go".data
    content := "package x".data
    changeType := "modified".data
    commitSHA := "c5".data
    lastModified := 0 }

/-- Processing configuration with `.go` allow-listed and no deny patterns. -/
def cfgGo : ProcessingConfig :=
  { allowedExtensions := [".go".data]
    excludePatterns := []
    maxWorkers := 2 }

/-- The single repository of the fixture runs. -/
def repoAlpha : Repository :=
  { fullName := "org/alpha".data }

/-- A chunker that runs the document processor model with generous
parameters (every fixture content is shorter than 100, so one chunk). -/
def chunkerModel (f : FileChange) : Option (List Document) :=
  chunkDocument 100 f 100 0

/-- A vectorizer response honouring the contract: one vector per text, in
order (vectors are modelled by `Nat`). -/
def embedOk (texts : List (List Char)) : Option (List Nat) :=
  some (List.replicate texts.length 0)

/-- Run environment in which chunking fails for every file while discovery,
diffing and upserting succeed. -/
def envChunkFail : SyncEnv Nat :=
  { repos := some [repoAlpha]
    lastSHA := fun _ _ => []
    changes := fun _ _ => some [fcModA]
    chunker := fun _ => none
    embedResp := embedOk
    upsertOk := true }

/-- Run environment whose only change record is the removal `fcRem`, with
every collaborator succeeding. -/
def envRemoval : SyncEnv Nat :=
  { repos := some [repoAlpha]
    lastSHA := fun _ _ => []
    changes := fun _ _ => some [fcRem]
    chunker := chunkerModel
    embedResp := embedOk
    upsertOk := true }

/-- A file with the same repository and path as `fcModA` but different
content and commit. -/
def fcModA2 : FileChange :=
  { repository := "org/alpha".data
    filePath := "a.go".data
    content := "package alpha2".data
    changeType := "modified".data
    commitSHA := "c9".data
    lastModified := 5 }

/-- The single document the model chunker produces for `fcModA`. -/
def dWitA : Document :=
  mkDocument fcModA 1 0 ("package a".data)

/-- A vectorizer response that fails exactly on the chunk batch of
`fcModB` and honours the contract elsewhere. -/
def embedFailB (texts : List (List Char)) : Option (List Nat) :=
  if texts = ["package b".data] then none else embedOk texts

/-- A string containing a control character (`\x01`) on its own line. -/
def ctrlString : List Char :=
  ['a', '\n', Char.ofNat 1, '\n', 'b']

/-- Run environment with two valid files in which the vectorizer fails on
every batch. -/
def envEmbedFail : SyncEnv Nat :=
  { repos := some [repoAlpha]
    lastSHA := fun _ _ => []
    changes := fun _ _ => some [fcModA, fcModB]
    chunker := chunkerModel
    embedResp := fun _ => none
    upsertOk := true }

/-! ### Theorems -/

/-- C1: counter-evidence for the checkpoint/index pairing invariant.  In the
run `envChunkFail` the single valid file `a.go` fails chunking, so none of
its vectors are upserted (`VectorsUpserted = 0`, `EmbeddingsGenerated = 0`),
yet `SyncProject` still ends the run saving a `SyncMetadata` row for `a.go`
with status `synced` and the file's current commit SHA — an advanced
checkpoint for a file whose vectors were never written. -/
theorem syncProject_checkpoint_without_upsert :
    (syncProject cfgGo ("org".data) envChunkFail ("p1".data) true).2 =
      [syncedMetadata ("p1".data) fcModA] ∧
    (syncedMetadata ("p1".data) fcModA).status = "synced".data ∧
    (syncedMetadata ("p1".data) fcModA).lastCommitSHA = fcModA.commitSHA ∧
    (syncProject cfgGo ("org".data) envChunkFail ("p1".data) true).1.vectorsUpserted = 0 ∧
    (syncProject cfgGo ("org".data) envChunkFail ("p1".data) true).1.embeddingsGenerated = 0 ∧
    (syncProject cfgGo ("org".data) envChunkFail ("p1".data) true).1.success = true := by
  decide

/-- C2: counter-evidence for removal exclusion.  `filterFiles`, the only
content filter `SyncProject` applies, never consults the change kind: the
removal record `fcRem` (change type `removed`, allow-listed extension
`.go`) passes the filter and is therefore handed to the chunk/embed/write
pipeline.  The repository's own `ValidateDocument` would have rejected it,
but no caller in the run path invokes `ValidateDocument`. -/
theorem filterFiles_keeps_removals :
    fcRem.changeType = "removed".data ∧
    filterFiles cfgGo [fcRem] = [fcRem] ∧
    validateDocument fcRem [".go".data] [] = false := by
  decide

/-- C3: counter-evidence for the deletion path.  `SyncProject` contains no
delete-by-identifier call: in the run `envRemoval`, whose only change record
is the removal `fcRem`, the engine instead chunks the removed file, upserts
one vector for it, and saves a `synced` checkpoint row for it — the opposite
of deleting its chunks and its checkpoint entry. -/
theorem syncProject_upserts_removed_file :
    fcRem.changeType = "removed".data ∧
    (syncProject cfgGo ("org".data) envRemoval ("p1".data) true).1.vectorsUpserted = 1 ∧
    (syncProject cfgGo ("org".data) envRemoval ("p1".data) true).2 =
      [syncedMetadata ("p1".data) fcRem] ∧
    (syncedMetadata ("p1".data) fcRem).status = "synced".data := by
  decide

/-- C4 counterexample: in the run `envEmbedFail` the vectorizer fails for
both attempted files `a.go` and `b.go`, yet `RunResult.Warnings` ends the
run empty — it does not contain one entry per attempted file (the failures
are only logged).  `EmbeddingsGenerated` and `VectorsUpserted` are 0 as the
claim expects. -/
theorem embed_failures_leave_warnings_empty :
    (syncProject cfgGo ("org".data) envEmbedFail ("p1".data) true).1.warnings = [] ∧
    (syncProject cfgGo ("org".data) envEmbedFail ("p1".data) true).1.filesProcessed = 2 ∧
    (syncProject cfgGo ("org".data) envEmbedFail ("p1".data) true).1.embeddingsGenerated = 0 ∧
    (syncProject cfgGo ("org".data) envEmbedFail ("p1".data) true).1.vectorsUpserted = 0 := by
  decide

/-- C5: counter-evidence for substring matching of deny patterns.  The
pattern `node_modules` occurs as a substring of `src/node_modules/x.go`
(witnessed by `strContains`), but the orchestrator's `contains` helper only
tests the prefix, so `filterFiles` keeps the file instead of excluding
it. -/
theorem filterFiles_pattern_prefix_only :
    strContains fcVendored.filePath ("node_modules".data) = true ∧
    containsGo fcVendored.filePath ("node_modules".data) = false ∧
    filterFiles { cfgGo with excludePatterns := ["node_modules".data] } [fcVendored] =
      [fcVendored] := by
  decide

/-- C10 counterexample: `CleanContent` is not idempotent.  On
`ctrlString = "a\n\x01\nb"` the first pass trims the middle line to the
single control character, then erases it, leaving an empty line in the
joined output; the second pass drops that now-empty line, so applying
`CleanContent` twice differs from applying it once. -/
theorem cleanContent_not_idempotent :
    cleanContent (cleanContent ctrlString) ≠ cleanContent ctrlString := by
  decide

/-- Once the loop of `splitIntoChunks` reaches a `start` value below the text
length that `splitStep` maps back to itself, no amount of fuel makes the
loop exit. -/
theorem splitLoop_fixpoint_none (text : List Char) (maxSize overlap : Int) (s : Int)
    (hs : s < (text.length : Int)) (hfix : (splitStep text maxSize overlap s).1 = s) :
    ∀ (fuel : Nat) (chunks : List (List Char)),
      splitLoop text maxSize overlap fuel s chunks = none := by
  intro fuel
  induction fuel with
  | zero => intro chunks; rfl
  | succ n ih =>
    intro chunks
    rw [splitLoop, if_pos hs, hfix]
    exact ih _

/-- C8 counterexample: the claimed precondition `0 ≤ overlap < maxSize / 2`
does not ensure termination.  With `maxSize = 10`, `overlap = 2` and a text
of 15 letters, the loop reaches `start = 13`, where the clamped end equals
the text length and `start` is re-assigned `15 - 2 = 13` forever, so
`splitIntoChunks` succeeds for no fuel. -/
theorem splitIntoChunks_diverges_with_overlap :
    ((0 : Int) ≤ 2 ∧ (2 : Int) < 10 / 2) ∧
      ¬ splitTerminates (List.replicate 15 'a') 10 2 := by
  refine ⟨by decide, ?_⟩
  rintro ⟨fuel, out, h⟩
  have hnone : splitIntoChunks fuel (List.replicate 15 'a') 10 2 = none := by
    obtain _ | (_ | (_ | n)) := fuel
    · rfl
    · rfl
    · rfl
    · have hred : splitIntoChunks (n + 3) (List.replicate 15 'a') 10 2 =
          splitLoop (List.replicate 15 'a') 10 2 (n + 1) 13
            [List.replicate 10 'a', List.replicate 7 'a'] := rfl
      rw [hred]
      exact splitLoop_fixpoint_none _ 10 2 13 (by decide) (by decide) _ _
  rw [h] at hnone
  exact Option.noConfusion hnone

/-- With no overlap and a positive chunk size, each loop iteration strictly
advances `start`: the clamped end is at least `start + 1`, and a sentence
boundary is only taken when its index exceeds `maxSize / 2 ≥ 0`. -/
theorem splitStep_advances (text : List Char) (maxSize : Int) (s : Int)
    (hms : 1 ≤ maxSize) (hs0 : 0 ≤ s) (hs : s < (text.length : Int)) :
    s + 1 ≤ (splitStep text maxSize 0 s).1 ∧ 0 ≤ (splitStep text maxSize 0 s).1 := by
  have hdiv : 0 ≤ maxSize / 2 := Int.ediv_nonneg (by omega) (by omega)
  simp only [splitStep]
  split_ifs with h1 h2 h3 <;> omega

/-- With no overlap and a positive chunk size, fuel `k + 1` completes the
loop from any `start` with `textLen - start ≤ k`. -/
theorem splitLoop_zero_overlap_some (text : List Char) (maxSize : Int) (hms : 1 ≤ maxSize) :
    ∀ (k : Nat) (s : Int) (chunks : List (List Char)), 0 ≤ s →
      (text.length : Int) ≤ s + k →
      ∃ out, splitLoop text maxSize 0 (k + 1) s chunks = some out := by
  intro k
  induction k with
  | zero =>
    intro s chunks hs0 hk
    refine ⟨chunks, ?_⟩
    rw [splitLoop, if_neg (by omega)]
  | succ n ih =>
    intro s chunks hs0 hk
    by_cases hs : s < (text.length : Int)
    · obtain ⟨hadv, hpos⟩ := splitStep_advances text maxSize s hms hs0 hs
      obtain ⟨out, hout⟩ := ih (splitStep text maxSize 0 s).1 _ hpos (by push_cast at hk; omega)
      refine ⟨out, ?_⟩
      rw [splitLoop, if_pos hs]
      exact hout
    · refine ⟨chunks, ?_⟩
      rw [splitLoop, if_neg hs]

/-- C8 amended: `splitIntoChunks` terminates for every input text when
`overlap = 0` and `maxSize ≥ 1` (each iteration strictly advances the start
position); the unamended bound `0 ≤ overlap < maxSize / 2` is not
sufficient, as `splitIntoChunks_diverges_with_overlap` shows, because the
final clamped iteration re-enters at `textLen - overlap`. -/
theorem splitIntoChunks_terminates_zero_overlap (text : List Char) (maxSize : Int)
    (hms : 1 ≤ maxSize) : splitTerminates text maxSize 0 := by
  obtain ⟨out, hout⟩ :=
    splitLoop_zero_overlap_some text maxSize hms text.length 0 [] le_rfl (by omega)
  exact ⟨text.length + 1, out, hout⟩

/-- C8 witness: the amended termination theorem applied to a concrete text
and chunk size. -/
theorem splitIntoChunks_terminates_zero_overlap_witness :
    splitTerminates ("hello world".data) 4 0 :=
  splitIntoChunks_terminates_zero_overlap ("hello world".data) 4 (by decide)

/-- C9: with an empty allow-listed extension set the orchestrator's
`filterFiles` returns the empty list on every input (the `any` over no
extensions is false for every file), whereas the document processor's
`ValidateDocument` skips the extension check entirely when the allowed list
is empty, accepting every non-deleted file that matches no deny pattern; on
the concrete file `a.go` with no deny patterns, `ValidateDocument` accepts
while `filterFiles` excludes, so the two implementations disagree. -/
theorem empty_allowlist_filters_disagree :
    (∀ (pats : List (List Char)) (w : Nat) (files : List FileChange),
        filterFiles { allowedExtensions := [], excludePatterns := pats, maxWorkers := w }
          files = []) ∧
    (∀ (fc : FileChange) (pats : List (List Char)),
        validateDocument fc [] pats =
          (!pats.any (fun p => strContains fc.filePath p) &&
            !(fc.changeType == "deleted".data || fc.changeType == "removed".data))) ∧
    validateDocument fcModA [] [] = true ∧
    filterFiles { allowedExtensions := [], excludePatterns := [], maxWorkers := 2 }
      [fcModA] = [] := by
  refine ⟨?_, ?_, by decide, by decide⟩
  · intro pats w files
    simp [filterFiles]
  · intro fc pats
    simp only [validateDocument]
    rw [if_neg (by simp)]
    cases hpat : pats.any (fun p => strContains fc.filePath p) <;>
      cases hdel : (fc.changeType == "deleted".data || fc.changeType == "removed".data) <;>
        simp [hpat, hdel]

/-- When the response holds a vector for every index the construction loop
reaches, `buildEmbeddings` succeeds and pairs document `j` with vector
`i + j`. -/
theorem buildEmbeddings_some {V : Type} (org : List Char) (vecs : List V) :
    ∀ (docs : List Document) (i : Nat), i + docs.length ≤ vecs.length →
      ∃ es, buildEmbeddings org vecs i docs = some es ∧ es.length = docs.length ∧
        ∀ (j : Nat) (d : Document), docs.get? j = some d →
          ∃ v, vecs.get? (i + j) = some v ∧
            es.get? j = some { id := d.id, vector := v, metadata := d.metadata,
                               repository := d.repository, filePath := d.filePath,
                               nspace := org } := by
  intro docs
  induction docs with
  | nil =>
    intro i hi
    exact ⟨[], rfl, rfl, fun j d hj => by simp at hj⟩
  | cons doc rest ih =>
    intro i hi
    have hv : i < vecs.length := by simp only [List.length_cons] at hi; omega
    obtain ⟨v, hvv⟩ : ∃ v, vecs.get? i = some v := ⟨vecs.get ⟨i, hv⟩, List.get?_eq_get hv⟩
    obtain ⟨es, hes, hlen, hall⟩ := ih (i + 1) (by simp only [List.length_cons] at hi; omega)
    refine ⟨{ id := doc.id, vector := v, metadata := doc.metadata,
              repository := doc.repository, filePath := doc.filePath,
              nspace := org } :: es, ?_, by simp [hlen], ?_⟩
    · rw [buildEmbeddings, hvv, hes]
      rfl
    · intro j d hj
      cases j with
      | zero =>
        rw [List.get?_cons_zero] at hj
        cases hj
        exact ⟨v, by simpa using hvv, by simp⟩
      | succ j =>
        rw [List.get?_cons_succ] at hj
        obtain ⟨v2, hv2, he2⟩ := hall j d hj
        refine ⟨v2, ?_, by simpa using he2⟩
        rw [show i + (j + 1) = i + 1 + j by omega]
        exact hv2

/-- C7: under the vectorizer contract — exactly one vector per input text,
in input order — `generateEmbeddings` is total on non-empty document lists:
it returns one `Embedding` per document, and the `i`-th embedding carries
document `i`'s ID, metadata, repository, path and the `i`-th response
vector; in particular the `result.Embeddings[i]` index access of the source
is always in bounds. -/
theorem generateEmbeddings_total {V : Type}
    (embedResp : List (List Char) → Option (List V)) (org : List Char)
    (documents : List Document) (vecs : List V)
    (hne : documents ≠ [])
    (hresp : embedResp (documents.map (fun d => d.content)) = some vecs)
    (hlen : vecs.length = documents.length) :
    ∃ es, generateEmbeddings embedResp org documents = some es ∧
      es.length = documents.length ∧
      ∀ (i : Nat) (d : Document), documents.get? i = some d →
        ∃ v, vecs.get? i = some v ∧
          es.get? i = some { id := d.id, vector := v, metadata := d.metadata,
                             repository := d.repository, filePath := d.filePath,
                             nspace := org } := by
  obtain ⟨es, hes, hl, hall⟩ := buildEmbeddings_some org vecs documents 0 (by omega)
  refine ⟨es, ?_, hl, fun i d hd => by simpa using hall i d hd⟩
  rw [generateEmbeddings, if_neg (by simp [hne]), hresp]
  exact hes

/-- C7 witness: the totality theorem applied to one concrete document and a
one-vector response. -/
theorem generateEmbeddings_total_witness :
    ∃ es, generateEmbeddings (fun _ => some [(7 : Nat)]) ("org".data) [dWitA] = some es ∧
      es.length = [dWitA].length ∧
      ∀ (i : Nat) (d : Document), [dWitA].get? i = some d →
        ∃ v, [(7 : Nat)].get? i = some v ∧
          es.get? i = some { id := d.id, vector := v, metadata := d.metadata,
                             repository := d.repository, filePath := d.filePath,
                             nspace := "org".data } :=
  generateEmbeddings_total (fun _ => some [7]) ("org".data) [dWitA] [7]
    (by decide) rfl rfl

/-- More fuel never changes a loop run of `splitIntoChunks` that already
exited. -/
theorem splitLoop_fuel_mono (text : List Char) (maxSize overlap : Int) :
    ∀ (fuel k : Nat) (s : Int) (chunks out : List (List Char)),
      splitLoop text maxSize overlap fuel s chunks = some out →
      splitLoop text maxSize overlap (fuel + k) s chunks = some out := by
  intro fuel
  induction fuel with
  | zero => intro k s chunks out h; exact absurd h (by simp [splitLoop])
  | succ n ih =>
    intro k s chunks out h
    rw [Nat.succ_add]
    by_cases hs : s < (text.length : Int)
    · rw [splitLoop, if_pos hs]
      rw [splitLoop, if_pos hs] at h
      exact ih k _ _ _ h
    · rw [splitLoop, if_neg hs]
      rw [splitLoop, if_neg hs] at h
      exact h

/-- Two successful runs of `splitIntoChunks` on the same inputs agree, no
matter how much fuel each was given. -/
theorem splitIntoChunks_some_unique (text : List Char) (maxSize overlap : Int)
    (f1 f2 : Nat) (r1 r2 : List (List Char))
    (h1 : splitIntoChunks f1 text maxSize overlap = some r1)
    (h2 : splitIntoChunks f2 text maxSize overlap = some r2) : r1 = r2 := by
  have e1 := splitLoop_fuel_mono text maxSize overlap f1 f2 0 [] r1 h1
  have e2 := splitLoop_fuel_mono text maxSize overlap f2 f1 0 [] r2 h2
  rw [Nat.add_comm f2 f1] at e2
  rw [e1] at e2
  exact Option.some.inj e2

/-- The document at ordinal `i` of `mkDocuments` is `mkDocument` applied to
the `i`-th chunk. -/
theorem mkDocuments_get? (fc : FileChange) (chunks : List (List Char)) (i : Nat)
    (d : Document) (h : (mkDocuments fc chunks).get? i = some d) :
    ∃ c, chunks.get? i = some c ∧ d = mkDocument fc chunks.length i c := by
  rw [mkDocuments, List.get?_map, List.get?_enum chunks i] at h
  cases hc : chunks.get? i with
  | none => rw [hc] at h; exact Option.noConfusion h
  | some c =>
    rw [hc] at h
    exact ⟨c, rfl, (Option.some.injEq _ _ ▸ h).symm⟩

/-- A successful `chunkDocument` run is `mkDocuments` over some chunk list
computed from the cleaned content and the parameters alone. -/
theorem chunkDocument_eq_mkDocuments (fuel : Nat) (fc : FileChange)
    (maxSize overlap : Int) (ds : List Document)
    (h : chunkDocument fuel fc maxSize overlap = some ds) :
    ∃ chunks, ds = mkDocuments fc chunks ∧
      ((cleanContent fc.content).length = 0 → chunks = []) ∧
      ((cleanContent fc.content).length ≠ 0 →
        ((cleanContent fc.content).length : Int) ≤ maxSize →
        chunks = [cleanContent fc.content]) ∧
      ((cleanContent fc.content).length ≠ 0 →
        ¬ ((cleanContent fc.content).length : Int) ≤ maxSize →
        splitIntoChunks fuel (cleanContent fc.content) maxSize overlap = some chunks) := by
  rw [chunkDocument] at h
  split_ifs at h with h0 h1
  · exact ⟨[], by simpa using h.symm, fun _ => rfl, fun hne _ => absurd h0 hne,
      fun hne _ => absurd h0 hne⟩
  · exact ⟨[cleanContent fc.content], (Option.some.injEq _ _ ▸ h).symm,
      fun hz => absurd hz h0, fun _ _ => rfl, fun _ hle => absurd h1 hle⟩
  · cases hs : splitIntoChunks fuel (cleanContent fc.content) maxSize overlap with
    | none => rw [hs] at h; exact Option.noConfusion h
    | some chunks =>
      rw [hs] at h
      simp only [Option.map_some'] at h
      exact ⟨chunks, (Option.some.inj h).symm, fun hz => absurd hz h0,
        fun _ hle => absurd hle h1, fun _ _ => rfl⟩

/-- C6: chunk identifiers are a pure function of (repository, path, ordinal)
and never of content.  For any two file changes with equal repository and
path, chunked with the same parameters (any fuel), the documents at the same
ordinal carry the same identifier and that ordinal; and when the contents
are also equal — an unchanged file re-chunked in a later run — the whole
runs agree on identifiers, ordinals and chunk counts. -/
theorem chunk_ids_content_independent
    (fc1 fc2 : FileChange) (maxSize overlap : Int) (fuel1 fuel2 : Nat)
    (ds1 ds2 : List Document)
    (hrepo : fc1.repository = fc2.repository)
    (hpath : fc1.filePath = fc2.filePath)
    (h1 : chunkDocument fuel1 fc1 maxSize overlap = some ds1)
    (h2 : chunkDocument fuel2 fc2 maxSize overlap = some ds2) :
    (∀ (i : Nat) (d1 d2 : Document), ds1.get? i = some d1 → ds2.get? i = some d2 →
        d1.id = d2.id ∧ d1.chunkIndex = i ∧ d2.chunkIndex = i) ∧
    (fc1.content = fc2.content →
        ds1.map (fun d => (d.id, d.chunkIndex, d.totalChunks)) =
          ds2.map (fun d => (d.id, d.chunkIndex, d.totalChunks))) := by
  obtain ⟨chunks1, hds1, hz1, ho1, hs1⟩ :=
    chunkDocument_eq_mkDocuments fuel1 fc1 maxSize overlap ds1 h1
  obtain ⟨chunks2, hds2, hz2, ho2, hs2⟩ :=
    chunkDocument_eq_mkDocuments fuel2 fc2 maxSize overlap ds2 h2
  constructor
  · intro i d1 d2 hd1 hd2
    obtain ⟨c1, _, rfl⟩ := mkDocuments_get? fc1 chunks1 i d1 (hds1 ▸ hd1)
    obtain ⟨c2, _, rfl⟩ := mkDocuments_get? fc2 chunks2 i d2 (hds2 ▸ hd2)
    exact ⟨by simp [mkDocument, hrepo, hpath], rfl, rfl⟩
  · intro hcontent
    rw [hcontent] at hz1 ho1 hs1
    have hchunks : chunks1 = chunks2 := by
      by_cases h0 : (cleanContent fc2.content).length = 0
      · rw [hz1 h0, hz2 h0]
      · by_cases hle : ((cleanContent fc2.content).length : Int) ≤ maxSize
        · rw [ho1 h0 hle, ho2 h0 hle]
        · exact splitIntoChunks_some_unique (cleanContent fc2.content) maxSize overlap
            fuel1 fuel2 chunks1 chunks2 (hs1 h0 hle) (hs2 h0 hle)
    subst hds1 hds2 hchunks
    simp only [mkDocuments, List.map_map]
    apply List.map_congr_left
    intro ic _
    simp [mkDocument, hrepo, hpath]

/-- C6 witness: the identifier theorem applied to two concrete file changes
that share repository and path but differ in content and commit. -/
theorem chunk_ids_content_independent_witness :
    (mkDocument fcModA 1 0 ("package a".data)).id =
      (mkDocument fcModA2 1 0 ("package alpha2".data)).id :=
  ((chunk_ids_content_independent fcModA fcModA2 100 0 9 5
      [mkDocument fcModA 1 0 ("package a".data)]
      [mkDocument fcModA2 1 0 ("package alpha2".data)]
      rfl rfl (by decide) (by decide)).1 0 _ _ rfl rfl).1

/-- C4 amended: chunking and vectorizing failures are logged only and never
reach `RunResult.Warnings`.  In every run whose discovery succeeds and whose
upsert does not fail, the final `Warnings` list is exactly the list of
repository-level diff failures, whatever the chunker and vectorizer did; and
when the vectorizer fails exactly for file `b.go` of a three-file batch, the
other two files' embeddings still come out of `processBatch` (two chunks
counted, embeddings for `a.go` and `c.go` in the upsert-bound list). -/
theorem processing_failures_logged_not_warned :
    (∀ (V : Type) (cfg : ProcessingConfig) (org : List Char) (env : SyncEnv V)
        (pid : List Char) (inc : Bool) (rs : List Repository),
        env.repos = some rs → env.upsertOk = true →
        (syncProject cfg org env pid inc).1.warnings =
          (collectChanges env pid inc rs).2) ∧
    (processBatch chunkerModel embedFailB ("org".data) [fcModA, fcModB, fcModC]).1.map
      (fun e => e.filePath) = ["a.go".data, "c.go".data] ∧
    (processBatch chunkerModel embedFailB ("org".data) [fcModA, fcModB, fcModC]).2 = 2 := by
  refine ⟨?_, by decide, by decide⟩
  intro V cfg org env pid inc rs hrs hup
  simp only [syncProject, hrs, hup]
  rw [if_neg (by simp)]
  split <;> rfl

/-- C4 witness: the amended theorem applied to the concrete
vectorizer-fails-everywhere run, whose diff warnings are empty. -/
theorem processing_failures_logged_not_warned_witness :
    (syncProject cfgGo ("org".data) envEmbedFail ("p1".data) true).1.warnings =
      (collectChanges envEmbedFail ("p1".data) true [repoAlpha]).2 :=
  processing_failures_logged_not_warned.1 Nat cfgGo ("org".data) envEmbedFail
    ("p1".data) true [repoAlpha] rfl rfl

/-- Mapping a function that fixes every element of a list is the
identity. -/
theorem map_self_of_eq {α : Type} (f : α → α) :
    ∀ (l : List α), (∀ a ∈ l, f a = a) → l.map f = l := by
  intro l
  induction l with
  | nil => intro _; rfl
  | cons a as ih =>
    intro h
    rw [List.map_cons, h a (List.mem_cons_self a as),
      ih (fun b hb => h b (List.mem_cons_of_mem a hb))]

/-- Every character of the trimmed list occurs in the original list. -/
theorem mem_trimSpace {c : Char} {l : List Char} (h : c ∈ trimSpace l) : c ∈ l := by
  rw [trimSpace, List.mem_reverse] at h
  have h2 := (List.dropWhile_sublist isSpaceGo).subset h
  rw [List.mem_reverse] at h2
  exact (List.dropWhile_sublist isSpaceGo).subset h2

/-- An initial segment of a list already stripped of its leading matches is
itself stripped of leading matches. -/
theorem dropWhile_eq_self_of_front (p : Char → Bool) (X t : List Char)
    (h : (X ++ t).dropWhile p = X ++ t) : X.dropWhile p = X := by
  cases X with
  | nil => rfl
  | cons x xs =>
    have hpx : p x = false := by
      by_contra hcon
      rw [List.cons_append, List.dropWhile_cons, if_pos (by simpa using hcon)] at h
      have hlen : ((xs ++ t).dropWhile p).length ≤ (xs ++ t).length :=
        (List.dropWhile_sublist p).length_le
      rw [h] at hlen
      simp at hlen
    rw [List.dropWhile_cons, if_neg (by simp [hpx])]

/-- Go strings.TrimSpace is idempotent. -/
theorem trimSpace_idem (l : List Char) : trimSpace (trimSpace l) = trimSpace l := by
  set A := l.dropWhile isSpaceGo with hA
  set B := A.reverse.dropWhile isSpaceGo with hB
  have htl : trimSpace l = B.reverse := rfl
  obtain ⟨t, ht⟩ : B <:+ A.reverse := hB ▸ List.dropWhile_suffix isSpaceGo
  have hAeq : A = B.reverse ++ t.reverse := by
    rw [← List.reverse_reverse A, ← ht, List.reverse_append]
  have hArev : A.dropWhile isSpaceGo = A := hA ▸ List.dropWhile_idempotent isSpaceGo l
  have hBrev : B.reverse.dropWhile isSpaceGo = B.reverse := by
    refine dropWhile_eq_self_of_front isSpaceGo B.reverse t.reverse ?_
    rw [← hAeq]
    exact hArev
  have hBdw : B.dropWhile isSpaceGo = B := hB ▸ List.dropWhile_idempotent isSpaceGo A.reverse
  rw [htl, trimSpace, hBrev, List.reverse_reverse, hBdw]

/-- Function `splitLines` never returns the empty list of segments. -/
theorem splitLines_ne_nil (s : List Char) : splitLines s ≠ [] := by
  induction s with
  | nil => simp [splitLines]
  | cons c cs ih =>
    rw [splitLines]
    split_ifs
    · simp
    · cases h : splitLines cs with
      | nil => simp
      | cons l ls => simp

/-- No segment produced by `splitLines` contains a newline. -/
theorem splitLines_no_newline (s : List Char) :
    ∀ seg ∈ splitLines s, '\n' ∉ seg := by
  induction s with
  | nil =>
    intro seg hseg
    rw [splitLines, List.mem_singleton] at hseg
    simp [hseg]
  | cons c cs ih =>
    intro seg hseg
    rw [splitLines] at hseg
    split_ifs at hseg with hc
    · rcases List.mem_cons.mp hseg with rfl | hmem
      · simp
      · exact ih seg hmem
    · cases h : splitLines cs with
      | nil => exact absurd h (splitLines_ne_nil cs)
      | cons l ls =>
        rw [h] at hseg
        rcases List.mem_cons.mp hseg with rfl | hmem
        · intro hnl
          rcases List.mem_cons.mp hnl with heq | hmem2
          · exact hc heq.symm
          · exact ih l (h ▸ List.mem_cons_self l ls) hmem2
        · exact ih seg (h ▸ List.mem_cons_of_mem l hmem)

/-- Every character of a `splitLines` segment occurs in the split string. -/
theorem splitLines_subset (s : List Char) :
    ∀ seg ∈ splitLines s, ∀ c ∈ seg, c ∈ s := by
  induction s with
  | nil =>
    intro seg hseg c hc
    rw [splitLines, List.mem_singleton] at hseg
    rw [hseg] at hc
    exact absurd hc (List.not_mem_nil c)
  | cons a as ih =>
    intro seg hseg c hc
    rw [splitLines] at hseg
    split_ifs at hseg with ha
    · rcases List.mem_cons.mp hseg with rfl | hmem
      · exact absurd hc (List.not_mem_nil c)
      · exact List.mem_cons_of_mem a (ih seg hmem c hc)
    · cases h : splitLines as with
      | nil => exact absurd h (splitLines_ne_nil as)
      | cons l ls =>
        rw [h] at hseg
        rcases List.mem_cons.mp hseg with rfl | hmem
        · rcases List.mem_cons.mp hc with rfl | hmem2
          · exact List.mem_cons_self c as
          · exact List.mem_cons_of_mem a (ih l (h ▸ List.mem_cons_self l ls) c hmem2)
        · exact List.mem_cons_of_mem a
            (ih seg (h ▸ List.mem_cons_of_mem l hmem) c hc)

/-- Splitting a newline-free string yields that string as the only
segment. -/
theorem splitLines_nl_free (l : List Char) (h : '\n' ∉ l) : splitLines l = [l] := by
  induction l with
  | nil => rfl
  | cons c cs ih =>
    have hc : ¬ c = '\n' := fun hEq => h (hEq ▸ List.mem_cons_self c cs)
    rw [splitLines, if_neg hc, ih (fun hm => h (List.mem_cons_of_mem c hm))]

/-- Splitting a string that starts with a newline-free segment followed by a
newline peels off that segment. -/
theorem splitLines_append (l rest : List Char) (h : '\n' ∉ l) :
    splitLines (l ++ '\n' :: rest) = l :: splitLines rest := by
  induction l with
  | nil => simp [splitLines]
  | cons c cs ih =>
    have hc : ¬ c = '\n' := fun hEq => h (hEq ▸ List.mem_cons_self c cs)
    rw [List.cons_append, splitLines, if_neg hc,
      ih (fun hm => h (List.mem_cons_of_mem c hm))]

/-- Function `splitLines` is a left inverse of `joinLines` on non-empty lists of
newline-free segments. -/
theorem splitLines_joinLines :
    ∀ (L : List (List Char)), L ≠ [] → (∀ l ∈ L, '\n' ∉ l) →
      splitLines (joinLines L) = L := by
  intro L
  induction L with
  | nil => intro h; exact absurd rfl h
  | cons l ls ih =>
    intro _ hfree
    cases ls with
    | nil =>
      rw [joinLines]
      exact splitLines_nl_free l (hfree l (List.mem_cons_self l []))
    | cons l2 ls2 =>
      have hjoin : joinLines (l :: l2 :: ls2) = l ++ '\n' :: joinLines (l2 :: ls2) := rfl
      rw [hjoin, splitLines_append l (joinLines (l2 :: ls2))
        (hfree l (List.mem_cons_self l (l2 :: ls2)))]
      rw [ih (List.cons_ne_nil l2 ls2) (fun x hx => hfree x (List.mem_cons_of_mem l hx))]

/-- C10 amended: `CleanContent` is idempotent on every string whose
characters are all tab, newline, or printable.  For such inputs the
control-character removal fixes every trimmed line, so the cleaned output is
a newline-join of non-empty trimmed lines, each of which the second pass
maps to itself.  (The unamended claim fails on other inputs — see
`cleanContent_not_idempotent` — because a line can become empty only after
the empty-line check has run.) -/
theorem cleanContent_idem_of_printable (s : List Char)
    (h : ∀ c ∈ s, c = '\t' ∨ c = '\n' ∨ isPrintGo c = true) :
    cleanContent (cleanContent s) = cleanContent s := by
  set L0 := ((splitLines s).map trimSpace).filter (fun l => !l.isEmpty) with hL0
  have hmemL0 : ∀ l ∈ L0, ∃ seg ∈ splitLines s, l = trimSpace seg := by
    intro l hl
    rw [hL0, List.mem_filter] at hl
    obtain ⟨hm, _⟩ := hl
    rw [List.mem_map] at hm
    obtain ⟨seg, hseg, hEq⟩ := hm
    exact ⟨seg, hseg, hEq.symm⟩
  have hkeep : ∀ l ∈ L0, l.filter keepRune = l := by
    intro l hl
    obtain ⟨seg, hseg, hEq⟩ := hmemL0 l hl
    rw [List.filter_eq_self]
    intro c hc
    have hcseg : c ∈ seg := mem_trimSpace (hEq ▸ hc)
    have hcs : c ∈ s := splitLines_subset s seg hseg c hcseg
    have hnn : ¬ c = '\n' := fun hnl => splitLines_no_newline s seg hseg (hnl ▸ hcseg)
    rcases h c hcs with h1 | h2 | h3
    · simp [keepRune, h1]
    · exact absurd h2 hnn
    · simp [keepRune, h3]
  have hclean : cleanContent s = joinLines L0 := by
    rw [cleanContent, ← hL0, map_self_of_eq (fun l => l.filter keepRune) L0 hkeep]
  have hP1 : ∀ l ∈ L0, '\n' ∉ l := by
    intro l hl
    obtain ⟨seg, hseg, hEq⟩ := hmemL0 l hl
    exact fun hx => splitLines_no_newline s seg hseg (mem_trimSpace (hEq ▸ hx))
  have hP2 : ∀ l ∈ L0, (!l.isEmpty) = true := by
    intro l hl
    rw [hL0, List.mem_filter] at hl
    exact hl.2
  have hP3 : ∀ l ∈ L0, trimSpace l = l := by
    intro l hl
    obtain ⟨seg, hseg, hEq⟩ := hmemL0 l hl
    rw [hEq]
    exact trimSpace_idem seg
  rw [hclean]
  cases hL : L0 with
  | nil => rfl
  | cons l0 ls =>
    rw [← hL]
    rw [cleanContent, splitLines_joinLines L0 (hL ▸ List.cons_ne_nil l0 ls) hP1]
    rw [map_self_of_eq trimSpace L0 hP3, List.filter_eq_self.mpr hP2,
      map_self_of_eq (fun l => l.filter keepRune) L0 hkeep]

/-- C10 witness: the amended idempotency theorem applied to a concrete
tab/newline/printable string. -/
theorem cleanContent_idem_of_printable_witness :
    cleanContent (cleanContent ("  alpha \n\n\tbeta gamma\n".data)) =
      cleanContent ("  alpha \n\n\tbeta gamma\n".data) :=
  cleanContent_idem_of_printable ("  alpha \n\n\tbeta gamma\n".data) (by decide)

end RepoSync
